import Mathlib

/-!
Verification of the cardutil message decoder: a shallow embedding of
`cardutil/data_element_reader.py` and `cardutil/optimized_iso8583.py`.

Bytes are modelled as `Nat` values (each < 256 in practice), byte streams as a
`List Nat` together with a cursor position, mirroring an in-memory binary file.
Read sizes are `Int` because Python read sizes are signed integers and a
negative size makes the underlying file return all remaining bytes.
Exceptions are modelled with `Except Err`; every operation also returns the
file state it leaves behind, because a Python exception leaves the underlying
cursor wherever the failed read put it.
-/

deriving instance DecidableEq for Except

/-- One error kind per distinct raise site in the source. -/
inductive Err where
  /-- EOFError raised by the strict read wrapper. -/
  | eofError
  /-- ValueError for a short length-prefix read (data_element_reader line 189). -/
  | shortPrefixError
  /-- ValueError when int() rejects the length-prefix bytes. -/
  | badPrefixError
  /-- ValueError when the payload length differs from the declared length. -/
  | lengthMismatchError
  /-- ValueError for an unknown field type in the configuration. -/
  | unknownFieldTypeError
  /-- IndexError from indexing the reader list out of range. -/
  | indexError
  /-- ValueError raised by max() over an empty configuration. -/
  | maxEmptyError
deriving DecidableEq, Repr

/-- An in-memory binary file: the full contents plus the read cursor. -/
structure File where
  data : List Nat
  pos : Nat
deriving DecidableEq, Repr

/-- Bytes still unread at the current cursor position. -/
def File.remaining (f : File) : Nat :=
  f.data.length - f.pos

/-- Model of the underlying file object read: a non-negative size returns up
to that many bytes from the cursor, a negative size returns everything that
remains (Python semantics of read with a negative size). -/
def File.read (f : File) (size : Int) : List Nat × File :=
  let rest := f.data.drop f.pos
  let n := if size < 0 then rest.length else min size.toNat rest.length
  (rest.take n, ⟨f.data, f.pos + n⟩)

/-- Model of the seek method: moves the cursor to an absolute offset. -/
def File.seekTo (f : File) (offset : Nat) : File :=
  ⟨f.data, offset⟩

/-- StrictBinary read (class with a strict read wrapper in the source): reads
from the underlying file and raises EOFError when fewer bytes than requested
came back. The file state is returned even on error, as the underlying cursor
has already advanced. -/
def strict_read (f : File) (size : Int) : Except Err (List Nat) × File :=
  let (data, f1) := f.read size
  if (data.length : Int) < size then (.error .eofError, f1)
  else (.ok data, f1)

/-- ASCII decimal digit test. -/
def isAsciiDigit (c : Nat) : Bool :=
  48 ≤ c && c ≤ 57

/-- ASCII whitespace accepted by the Python int constructor. -/
def isPySpace (c : Nat) : Bool :=
  c = 32 || c = 9 || c = 10 || c = 13 || c = 11 || c = 12

/-- Digit run continuation for the Python int constructor: digits with single
underscores allowed between digits only. -/
def pyDigitsAux : Nat → List Nat → Option Nat
  | acc, [] => some acc
  | acc, c :: rest =>
    if isAsciiDigit c then pyDigitsAux (acc * 10 + (c - 48)) rest
    else if c = 95 then
      match rest with
      | [] => none
      | d :: rest2 =>
        if isAsciiDigit d then pyDigitsAux (acc * 10 + (d - 48)) rest2 else none
    else none

/-- Nonempty digit run for the Python int constructor. -/
def pyDigits : List Nat → Option Nat
  | [] => none
  | c :: rest => if isAsciiDigit c then pyDigitsAux (c - 48) rest else none

/-- Model of Python int() applied to a byte string: optional surrounding
whitespace, optional sign, then a nonempty decimal digit run. Returns none
where int() raises ValueError. Note a negative value such as the bytes of
-5 parses successfully. -/
def pyInt (bs : List Nat) : Option Int :=
  let trimmed := ((bs.dropWhile isPySpace).reverse.dropWhile isPySpace).reverse
  match trimmed with
  | [] => none
  | c :: rest =>
    if c = 43 then (pyDigits rest).map (fun n => (n : Int))
    else if c = 45 then (pyDigits rest).map (fun n => -(n : Int))
    else (pyDigits trimmed).map (fun n => (n : Int))

/-- Model of int.from_bytes with big-endian byte order. -/
def intFromBytesBE (bs : List Nat) : Nat :=
  bs.foldl (fun acc b => acc * 256 + b) 0

/-- The end-of-file lookahead of the message iterator: remembers the cursor,
attempts a strict 1-byte read, and restores the cursor on every exit path
(the finally clause). Returns true on EOFError; the Python fall-through
return of None is modelled as false, both being falsy. -/
def is_end_of_file (f : File) : Bool × File :=
  let current_position := f.pos
  let (res, f1) := strict_read f 1
  let f2 := f1.seekTo current_position
  match res with
  | .error _ => (true, f2)
  | .ok _ => (false, f2)

/-- Strict variable-length field reader from data_element_reader: a strict
read of the prefix bytes (EOFError when short), a dead re-check of the prefix
length, Python int() on the prefix, a strict read of the payload, and a
re-check of the payload length that only a negative parsed length can
reach. -/
def variable_length_reader (len0 : Nat) (f : File) : Except Err (List Nat) × File :=
  match strict_read f (len0 : Int) with
  | (.error e, f1) => (.error e, f1)
  | (.ok length_bytes, f1) =>
    if length_bytes.length < len0 then (.error .shortPrefixError, f1)
    else
      match pyInt length_bytes with
      | none => (.error .badPrefixError, f1)
      | some length =>
        match strict_read f1 length with
        | (.error e, f2) => (.error e, f2)
        | (.ok data, f2) =>
          if (data.length : Int) ≠ length then (.error .lengthMismatchError, f2)
          else (.ok data, f2)

/-- Permissive variable-length field reader from optimized_iso8583: reads the
prefix from the plain (non-strict) file, treats an empty prefix read as a
soft end signal returning none, parses with int(), and returns the payload
read without any length check. -/
def optimized_variable_length_reader (len0 : Nat) (f : File) :
    Except Err (Option (List Nat)) × File :=
  let (length_bytes, f1) := f.read (len0 : Int)
  if length_bytes.isEmpty then (.ok none, f1)
  else
    match pyInt length_bytes with
    | none => (.error .badPrefixError, f1)
    | some length =>
      let (data, f2) := f1.read length
      (.ok (some data), f2)

/-- Bitmap decoding shared by both modules: for byte index i and bit index j
(MSB first), a set bit emits field number i*8 + j + 1, in order. -/
def determine_set_bit_indices (bit_map : List Nat) : List Nat :=
  (bit_map.enum.map (fun p =>
    (List.range 8).filterMap (fun j =>
      if p.2 &&& (1 <<< (7 - j)) ≠ 0 then some (p.1 * 8 + j + 1) else none))).flatten

/-- Modelled from the spec (the encoding side of the round trip; the source
only decodes): byte index i carries, MSB first, the presence bits of field
numbers i*8+1 .. i*8+8, so the byte value is the sum of the powers of two for
the members of F. This matches the bitmap helper in the repository tests. -/
def encode_byte (F : Finset Nat) (i : Nat) : Nat :=
  (if i * 8 + 1 ∈ F then 128 else 0) + (if i * 8 + 2 ∈ F then 64 else 0) +
  (if i * 8 + 3 ∈ F then 32 else 0) + (if i * 8 + 4 ∈ F then 16 else 0) +
  (if i * 8 + 5 ∈ F then 8 else 0) + (if i * 8 + 6 ∈ F then 4 else 0) +
  (if i * 8 + 7 ∈ F then 2 else 0) + (if i * 8 + 8 ∈ F then 1 else 0)

/-- Modelled from the spec: the 16-byte bitmap whose set bits are exactly the
field numbers in F. -/
def encode_bitmap (F : Finset Nat) : List Nat :=
  (List.range 16).map (encode_byte F)

/-- Field details from the configuration mapping: the field type string and
the optional field length. -/
structure FieldDetails where
  field_type : String
  field_length : Option Nat
deriving DecidableEq, Repr

/-- Defunctionalized bound field reader: the closures in the source capture
only the fixed length or the prefix length, so a reader is one of these. -/
inductive FieldReader where
  | fixed (length : Nat)
  | llvar
  | lllvar
deriving DecidableEq, Repr

/-- Runs a bound field reader against the strict byte source, exactly as the
bound closures of data_element_reader do. -/
def runFieldReader : FieldReader → File → Except Err (List Nat) × File
  | .fixed length, f => strict_read f (length : Int)
  | .llvar, f => variable_length_reader 2 f
  | .lllvar, f => variable_length_reader 3 f

/-- Loop body of reader-index construction: walks the configuration entries
in order, placing a bound reader at each configured index, failing on an
unknown field type. A missing field length defaults to 0 via dict get. -/
def reader_index_go : List (Nat × FieldDetails) → List (Option FieldReader) →
    Except Err (List (Option FieldReader))
  | [], idx => .ok idx
  | p :: rest, idx =>
    let field_length := p.2.field_length.getD 0
    if p.2.field_type = "FIXED" then
      reader_index_go rest (idx.set p.1 (some (.fixed field_length)))
    else if p.2.field_type = "LLVAR" then
      reader_index_go rest (idx.set p.1 (some .llvar))
    else if p.2.field_type = "LLLVAR" then
      reader_index_go rest (idx.set p.1 (some .lllvar))
    else .error .unknownFieldTypeError

/-- Reader-index construction: the list is sized by the maximum configured
field number plus one (max() raises on an empty configuration), then each
configured entry is bound. -/
def create_reader_index (bit_config : List (Nat × FieldDetails)) :
    Except Err (List (Option FieldReader)) :=
  match bit_config with
  | [] => .error .maxEmptyError
  | _ =>
    let max_bit := (bit_config.map Prod.fst).foldl max 0
    reader_index_go bit_config (List.replicate (max_bit + 1) none)

/-- Loop of the data-element read: for each set bit index in order, index the
reader list (an out-of-range index raises IndexError exactly as Python list
indexing does), skip unconfigured entries, and run configured readers in
sequence, threading the file. -/
def read_data_elements_go (readers : List (Option FieldReader)) :
    List Nat → List (Option (List Nat)) → File →
    Except Err (List (Option (List Nat))) × File
  | [], acc, f => (.ok acc, f)
  | i :: rest, acc, f =>
    match readers.get? i with
    | none => (.error .indexError, f)
    | some none => read_data_elements_go readers rest acc f
    | some (some r) =>
      match runFieldReader r f with
      | (.error e, f1) => (.error e, f1)
      | (.ok data, f1) => read_data_elements_go readers rest (acc.set i (some data)) f1

/-- Reads the data elements selected by a bitmap: output slots default to
none and are filled for each set, configured bit. -/
def read_data_elements (readers : List (Option FieldReader)) (f : File)
    (bit_map : List Nat) : Except Err (List (Option (List Nat))) × File :=
  read_data_elements_go readers (determine_set_bit_indices bit_map)
    (List.replicate readers.length none) f

/-- One decoded message: 4 raw MTI bytes, 16 raw bitmap bytes, and the
per-field optional elements. -/
structure IpmMessage where
  mti : List Nat
  bitmap : List Nat
  data_elements : List (Option (List Nat))
deriving DecidableEq, Repr

/-- One step of the base message iterator: the EOF lookahead first (ok none
models StopIteration), then strict reads of the 4-byte MTI and 16-byte
bitmap, then the bitmap-driven element reads. -/
def ipm_next (readers : List (Option FieldReader)) (f : File) :
    Except Err (Option IpmMessage) × File :=
  let (eof, f0) := is_end_of_file f
  if eof then (.ok none, f0)
  else
    match strict_read f0 4 with
    | (.error e, f1) => (.error e, f1)
    | (.ok mti, f1) =>
      match strict_read f1 16 with
      | (.error e, f2) => (.error e, f2)
      | (.ok bitmap, f2) =>
        match read_data_elements readers f2 bitmap with
        | (.error e, f3) => (.error e, f3)
        | (.ok des, f3) => (.ok (some ⟨mti, bitmap, des⟩), f3)

/-- One step of the RDW framed iterator: a strict 4-byte read of the record
descriptor word, StopIteration on the zero sentinel, otherwise delegation to
the base iterator step (which still begins with the EOF lookahead). -/
def rdw_next (readers : List (Option FieldReader)) (f : File) :
    Except Err (Option IpmMessage) × File :=
  match strict_read f 4 with
  | (.error e, f1) => (.error e, f1)
  | (.ok raw_length, f1) =>
    let length := intFromBytesBE raw_length
    if length = 0 then (.ok none, f1)
    else ipm_next readers f1

/-- BytesIO write at the current cursor: overwrites in place from the cursor
and leaves the cursor after the written bytes. -/
def bufferWrite (buf : File) (bs : List Nat) : File :=
  ⟨buf.data.take buf.pos ++ bs ++ buf.data.drop (buf.pos + bs.length), buf.pos + bs.length⟩

/-- State of the block unwrapper: the underlying file, the block size, and
the internal BytesIO buffer with its single shared cursor. -/
structure BlockedReader where
  file : File
  block_size : Nat
  buffer : File
deriving DecidableEq, Repr

/-- A fresh block unwrapper over a file: the internal buffer starts empty. -/
def BlockedReader.new (f : File) (block_size : Nat := 1014) : BlockedReader :=
  ⟨f, block_size, ⟨[], 0⟩⟩

/-- Fill loop of the block unwrapper, with explicit fuel standing for the
while loop: while fewer unread buffer bytes than requested, read one block,
stop on an empty read, else append the block minus its 2-byte trailer to the
buffer. Fuel of remaining bytes plus one covers every iteration the loop can
make, since each non-final iteration consumes at least one source byte. -/
def fill_buffer_loop (block_size : Nat) :
    Nat → File → File → Nat → File × File
  | 0, file, buf, _ => (file, buf)
  | fuel + 1, file, buf, total_bytes =>
    if buf.data.length - buf.pos < total_bytes then
      let (block, f1) := file.read (block_size : Int)
      if block.isEmpty then (file, buf)
      else fill_buffer_loop block_size fuel f1
        (bufferWrite buf (block.take (block_size - 2))) total_bytes
    else (file, buf)

/-- Buffer fill of the block unwrapper read. -/
def fill_buffer_if_needed (br : BlockedReader) (total_bytes : Nat) : BlockedReader :=
  let r := fill_buffer_loop br.block_size (br.file.data.length - br.file.pos + 1)
    br.file br.buffer total_bytes
  ⟨r.1, br.block_size, r.2⟩

/-- The block unwrapper read: fill the buffer as needed, then read the
requested bytes from the internal buffer at its current cursor. -/
def BlockedReader.read (br : BlockedReader) (total_bytes : Nat) :
    List Nat × BlockedReader :=
  let br1 := fill_buffer_if_needed br total_bytes
  let (data, buf1) := br1.buffer.read (total_bytes : Int)
  (data, ⟨br1.file, br1.block_size, buf1⟩)

/-! ## Helper lemmas about the strict byte source -/

theorem length_drop_pos (f : File) : (f.data.drop f.pos).length = f.remaining := by
  simp [File.remaining]

theorem strict_read_ok (f : File) (n : Int) (h0 : 0 ≤ n)
    (h : n ≤ (f.remaining : Int)) :
    strict_read f n =
      (.ok ((f.data.drop f.pos).take n.toNat), ⟨f.data, f.pos + n.toNat⟩) := by
  have hneg : ¬ n < 0 := by omega
  have hle : n.toNat ≤ (f.data.drop f.pos).length := by
    rw [length_drop_pos]; omega
  have hmin : min n.toNat (f.data.drop f.pos).length = n.toNat := min_eq_left hle
  have hlen : ((f.data.drop f.pos).take n.toNat).length = n.toNat := by
    rw [List.length_take, hmin]
  have hcond : ¬ ((((f.data.drop f.pos).take n.toNat).length : Int) < n) := by
    rw [hlen, Int.toNat_of_nonneg h0]; omega
  simp only [strict_read, File.read, if_neg hneg, hmin, if_neg hcond]

theorem strict_read_err (f : File) (n : Int) (h : (f.remaining : Int) < n) :
    strict_read f n = (.error .eofError, ⟨f.data, f.pos + f.remaining⟩) := by
  have hneg : ¬ n < 0 := by omega
  have hge : (f.data.drop f.pos).length ≤ n.toNat := by
    rw [length_drop_pos]; omega
  have hmin : min n.toNat (f.data.drop f.pos).length = (f.data.drop f.pos).length :=
    min_eq_right hge
  have htake : (f.data.drop f.pos).take (f.data.drop f.pos).length = f.data.drop f.pos :=
    List.take_length _
  have hcond : (((f.data.drop f.pos).length : Int) < n) := by
    rw [length_drop_pos]; omega
  simp only [strict_read, File.read, if_neg hneg, hmin, htake]
  rw [if_pos hcond, length_drop_pos]

theorem is_end_of_file_eq (f : File) :
    is_end_of_file f = (decide (f.remaining = 0), f) := by
  rcases Nat.eq_zero_or_pos f.remaining with h | h
  · have he := strict_read_err f 1 (by omega)
    simp only [is_end_of_file, he, File.seekTo, h, decide_eq_true_eq]
    simp [h]
  · have ho := strict_read_ok f 1 (by omega) (by exact_mod_cast h)
    simp only [is_end_of_file, ho, File.seekTo]
    simp [Nat.pos_iff_ne_zero.mp h]

/-! ## C7: strict read returns exactly n bytes or raises EOFError -/

/-- C7 (counterexample): the claim quantifies over every n, but for a
negative size the strict read silently returns all remaining bytes, which is
not exactly n bytes, and does not fail with EndOfStream. -/
theorem strict_read_negative_size_counterexample :
    (strict_read ⟨[5], 0⟩ (-1)).1 = .ok [5] ∧ (([5] : List Nat).length : Int) ≠ -1 := by
  exact ⟨rfl, by decide⟩

/-- C7 (amended): for every size n ≥ 0, the strict read either fails with
EndOfStream when fewer than n bytes remain, or returns exactly n bytes; it
never returns a shorter buffer. -/
theorem strict_read_exact_or_eof (f : File) (n : Int) (hn : 0 ≤ n) :
    ((f.remaining : Int) < n → (strict_read f n).1 = .error .eofError) ∧
    (n ≤ (f.remaining : Int) →
      (strict_read f n).1 = .ok ((f.data.drop f.pos).take n.toNat) ∧
      (((f.data.drop f.pos).take n.toNat).length : Int) = n) := by
  constructor
  · intro h
    rw [strict_read_err f n h]
  · intro h
    rw [strict_read_ok f n hn h]
    refine ⟨rfl, ?_⟩
    have hle : n.toNat ≤ (f.data.drop f.pos).length := by
      rw [length_drop_pos]; omega
    rw [List.length_take, min_eq_left hle, Int.toNat_of_nonneg hn]

/-- C7 witness: a concrete strict read of 2 bytes from a 3-byte source
returns exactly the first 2 bytes. -/
theorem strict_read_exact_or_eof_witness :
    ((2 : Int) ≤ ((⟨[7, 8, 9], 0⟩ : File).remaining : Int)) ∧
    (strict_read ⟨[7, 8, 9], 0⟩ 2).1 = .ok [7, 8] := by
  refine ⟨by decide, ?_⟩
  have h := (strict_read_exact_or_eof ⟨[7, 8, 9], 0⟩ 2 (by decide)).2 (by decide)
  rw [h.1]
  decide

/-! ## C9: the EOF lookahead is position-preserving and correct -/

/-- C9: the end-of-file lookahead leaves the cursor unchanged on every exit
path and reports true exactly when no further byte is available at the
current position. -/
theorem is_end_of_file_frame_and_correct (f : File) :
    (is_end_of_file f).2 = f ∧
    ((is_end_of_file f).1 = true ↔ f.remaining = 0) := by
  rw [is_end_of_file_eq]
  exact ⟨rfl, by simp⟩

/-! ## C1: the block unwrapper -/

theorem bufferWrite_end (buf : File) (l : List Nat) (h : buf.pos = buf.data.length) :
    (bufferWrite buf l).pos = (bufferWrite buf l).data.length := by
  simp only [bufferWrite, List.length_append, List.length_take, List.length_drop]
  omega

theorem fill_buffer_loop_end (bs : Nat) (fuel : Nat) :
    ∀ (file buf : File) (tb : Nat), buf.pos = buf.data.length →
      (fill_buffer_loop bs fuel file buf tb).2.pos =
        (fill_buffer_loop bs fuel file buf tb).2.data.length := by
  induction fuel with
  | zero =>
    intro file buf tb h
    simpa [fill_buffer_loop] using h
  | succ n ih =>
    intro file buf tb h
    rcases hfr : file.read (bs : Int) with ⟨block, f1⟩
    simp only [fill_buffer_loop, hfr]
    split
    · split
      · exact h
      · exact ih _ _ _ (bufferWrite_end _ _ h)
    · exact h

theorem blocked_read_at_end_empty (br : BlockedReader) (n : Nat)
    (h : br.buffer.pos = br.buffer.data.length) :
    (BlockedReader.read br n).1 = [] := by
  have hend := fill_buffer_loop_end br.block_size
    (br.file.data.length - br.file.pos + 1) br.file br.buffer n h
  simp only [BlockedReader.read, fill_buffer_if_needed]
  have hrest :
      ((fill_buffer_loop br.block_size (br.file.data.length - br.file.pos + 1)
          br.file br.buffer n).2.data.drop
        (fill_buffer_loop br.block_size (br.file.data.length - br.file.pos + 1)
          br.file br.buffer n).2.pos) = [] := by
    rw [hend]
    exact List.drop_length _
  simp [File.read, hrest]

/-- C1 (code bug): reading any number of bytes from a fresh block unwrapper
always returns the empty byte string, never the unwrapped logical stream: the
internal buffer shares a single cursor between its writes and reads, so every
write leaves the cursor at the end of the buffer and the subsequent buffer
read starts there. The claimed unwrapped stream is unreachable. -/
theorem blocked_reader_read_always_empty (f : File) (bs n : Nat) :
    (BlockedReader.read (BlockedReader.new f bs) n).1 = [] :=
  blocked_read_at_end_empty _ n rfl

/-! ## C2: set bits above the maximum configured field number -/

/-- C2 (code bug): with only field 1 configured, the reader index has length
2, and a bitmap with bit 3 set makes the data-element read fail with
IndexError from indexing the reader list out of range, instead of silently
ignoring the unconfigured field number as the module documentation states. -/
theorem unconfigured_high_bit_raises_index_error :
    create_reader_index [(1, ⟨"FIXED", some 5⟩)] = .ok [none, some (.fixed 5)] ∧
    (read_data_elements [none, some (.fixed 5)] ⟨[], 0⟩
        (32 :: List.replicate 15 0)).1 = .error .indexError := by
  exact ⟨rfl, rfl⟩

/-! ## C3: RDW framing termination -/

/-- C3 (counterexample): a nonzero 4-byte RDW followed by zero further bytes
ends the sequence normally (StopIteration, modelled as ok none) via the
inherited end-of-file lookahead, instead of being a hard EndOfStream failure
as the claim states. -/
theorem rdw_nonzero_then_empty_counterexample :
    rdw_next [none, some (.fixed 5)] ⟨[0, 0, 0, 20], 0⟩
      = (.ok none, ⟨[0, 0, 0, 20], 4⟩) ∧
    (rdw_next [none, some (.fixed 5)] ⟨[0, 0, 0, 20], 0⟩).1 ≠ .error .eofError := by
  exact ⟨rfl, by decide⟩

/-- C3 (amended): with the 4-byte RDW available, a zero RDW value ends the
sequence normally at once, regardless of any trailing bytes; a nonzero RDW is
consumed, and then the iterator also ends the sequence normally when zero
further bytes are available (the inherited EOF lookahead fires), while a
partial header of 1 to 19 further bytes is a hard EndOfStream failure. -/
theorem rdw_next_termination (readers : List (Option FieldReader)) (f : File)
    (h4 : 4 ≤ f.remaining) :
    (intFromBytesBE ((f.data.drop f.pos).take 4) = 0 →
      rdw_next readers f = (.ok none, ⟨f.data, f.pos + 4⟩)) ∧
    (intFromBytesBE ((f.data.drop f.pos).take 4) ≠ 0 →
      (f.remaining = 4 → rdw_next readers f = (.ok none, ⟨f.data, f.pos + 4⟩)) ∧
      (5 ≤ f.remaining → f.remaining < 24 →
        (rdw_next readers f).1 = .error .eofError)) := by
  have hok := strict_read_ok f 4 (by omega) (by exact_mod_cast h4)
  rw [show ((4 : Int).toNat) = 4 from rfl] at hok
  have hrem1 : (⟨f.data, f.pos + 4⟩ : File).remaining = f.remaining - 4 := by
    simp only [File.remaining] at h4 ⊢
    omega
  constructor
  · intro hz
    simp only [rdw_next, hok, if_pos hz]
  · intro hnz
    constructor
    · intro hrem
      simp only [rdw_next, hok, if_neg hnz]
      have hr0 : (⟨f.data, f.pos + 4⟩ : File).remaining = 0 := by omega
      simp only [ipm_next, is_end_of_file_eq, hr0, decide_true_eq_true]
      simp
    · intro h5 h24
      simp only [rdw_next, hok, if_neg hnz]
      have hrne : ¬ ((⟨f.data, f.pos + 4⟩ : File).remaining = 0) := by omega
      simp only [ipm_next, is_end_of_file_eq, decide_eq_false hrne]
      by_cases h8 : f.remaining < 8
      · have herr := strict_read_err (⟨f.data, f.pos + 4⟩ : File) 4
          (by rw [hrem1]; exact_mod_cast (by omega : f.remaining - 4 < 4))
        simp only [herr, Bool.false_eq_true, if_false]
      · have hok2 := strict_read_ok (⟨f.data, f.pos + 4⟩ : File) 4 (by omega)
          (by rw [hrem1]; exact_mod_cast (by omega : 4 ≤ f.remaining - 4))
        rw [show ((4 : Int).toNat) = 4 from rfl] at hok2
        have hrem2 : (⟨f.data, f.pos + 4 + 4⟩ : File).remaining = f.remaining - 8 := by
          simp only [File.remaining] at h4 ⊢
          omega
        have herr16 := strict_read_err (⟨f.data, f.pos + 4 + 4⟩ : File) 16
          (by rw [hrem2]; exact_mod_cast (by omega : f.remaining - 8 < 16))
        simp only [hok2, herr16, Bool.false_eq_true, if_false]

/-- C3 witness: a zero RDW value ends the sequence at once despite two
trailing bytes, and a nonzero RDW followed by three bytes fails hard with
EndOfStream. -/
theorem rdw_next_termination_witness :
    (4 ≤ (⟨[0, 0, 0, 0, 9, 9], 0⟩ : File).remaining) ∧
    rdw_next [] ⟨[0, 0, 0, 0, 9, 9], 0⟩ = (.ok none, ⟨[0, 0, 0, 0, 9, 9], 4⟩) ∧
    (4 ≤ (⟨[0, 0, 0, 20, 1, 2, 3], 0⟩ : File).remaining) ∧
    (rdw_next [] ⟨[0, 0, 0, 20, 1, 2, 3], 0⟩).1 = .error .eofError := by
  refine ⟨by decide, ?_, by decide, ?_⟩
  · exact (rdw_next_termination [] ⟨[0, 0, 0, 0, 9, 9], 0⟩ (by decide)).1 (by decide)
  · exact ((rdw_next_termination [] ⟨[0, 0, 0, 20, 1, 2, 3], 0⟩ (by decide)).2
      (by decide)).2 (by decide) (by decide)

/-! ## C4: strict-mode short payload for a variable-length field -/

/-- C4 (counterexample): an LLVAR field with prefix 10 but only 5 payload
bytes available fails with EOFError (EndOfStream) from the strict read, not
with the LengthMismatch kind; the length-mismatch re-check in the source is
unreachable for a non-negative parsed length. This matches the repository
test that expects EOFError on short data. -/
theorem strict_llvar_short_payload_counterexample :
    variable_length_reader 2 ⟨[49, 48, 104, 101, 108, 108, 111], 0⟩
      = (.error .eofError, ⟨[49, 48, 104, 101, 108, 108, 111], 7⟩) ∧
    Err.eofError ≠ Err.lengthMismatchError := ⟨rfl, by decide⟩

/-- C4 (amended): in strict mode, once the prefix has parsed to a
non-negative payload length L, the reader returns exactly L payload bytes
when that many are available, and fails with EndOfStream (EOFError), not
LengthMismatch, when fewer are available. -/
theorem strict_var_payload_exact_or_eof (plen : Nat) (f : File) (L : Int)
    (hp : plen ≤ f.remaining)
    (hparse : pyInt ((f.data.drop f.pos).take plen) = some L)
    (hL : 0 ≤ L) :
    (f.remaining - plen < L.toNat →
      (variable_length_reader plen f).1 = .error .eofError) ∧
    (L.toNat ≤ f.remaining - plen →
      variable_length_reader plen f =
        (.ok ((f.data.drop (f.pos + plen)).take L.toNat),
          ⟨f.data, f.pos + plen + L.toNat⟩)) := by
  have hok := strict_read_ok f (plen : Int) (by exact_mod_cast Nat.zero_le plen)
    (by exact_mod_cast hp)
  rw [Int.toNat_natCast] at hok
  have hlen : ((f.data.drop f.pos).take plen).length = plen := by
    rw [List.length_take, length_drop_pos, min_eq_left hp]
  have hnlt : ¬ (((f.data.drop f.pos).take plen).length < plen) := by omega
  have hrem1 : (⟨f.data, f.pos + plen⟩ : File).remaining = f.remaining - plen := by
    simp only [File.remaining] at hp ⊢
    omega
  constructor
  · intro hshort
    have herr := strict_read_err (⟨f.data, f.pos + plen⟩ : File) L
      (by rw [hrem1, ← Int.toNat_of_nonneg hL]; exact_mod_cast hshort)
    simp only [variable_length_reader, hok, if_neg hnlt, hparse, herr]
  · intro hle
    have hok2 := strict_read_ok (⟨f.data, f.pos + plen⟩ : File) L hL
      (by rw [hrem1, ← Int.toNat_of_nonneg hL]; exact_mod_cast hle)
    have hlen2 :
        (((⟨f.data, f.pos + plen⟩ : File).data.drop
            (⟨f.data, f.pos + plen⟩ : File).pos).take L.toNat).length = L.toNat := by
      rw [List.length_take, length_drop_pos, hrem1, min_eq_left hle]
    have hne : ¬ (((((⟨f.data, f.pos + plen⟩ : File).data.drop
        (⟨f.data, f.pos + plen⟩ : File).pos).take L.toNat).length : Int) ≠ L) := by
      rw [hlen2, Int.toNat_of_nonneg hL]
      simp
    simp only [variable_length_reader, hok, if_neg hnlt, hparse, hok2, if_neg hne]

/-- C4 witness: LLVAR on the bytes of 05hello returns hello. -/
theorem strict_var_payload_exact_or_eof_witness :
    (2 ≤ (⟨[48, 53, 104, 101, 108, 108, 111], 0⟩ : File).remaining) ∧
    pyInt [48, 53] = some 5 ∧
    variable_length_reader 2 ⟨[48, 53, 104, 101, 108, 108, 111], 0⟩
      = (.ok [104, 101, 108, 108, 111], ⟨[48, 53, 104, 101, 108, 108, 111], 7⟩) := by
  refine ⟨by decide, by decide, ?_⟩
  have h := (strict_var_payload_exact_or_eof 2 ⟨[48, 53, 104, 101, 108, 108, 111], 0⟩ 5
    (by decide) (by decide) (by decide)).2 (by decide)
  rw [h]
  decide

/-! ## C5: malformed and negative length prefixes -/

/-- C5 (counterexample): the prefix bytes of -5 are a well-formed (negative)
integer for int(), so the reader does not fail with InvalidLengthPrefix;
instead the negative-size payload read consumes all three remaining payload
bytes and the reader fails with the length-mismatch ValueError. -/
theorem strict_negative_length_counterexample :
    pyInt [45, 53] = some (-5) ∧
    variable_length_reader 2 ⟨[45, 53, 120, 121, 122], 0⟩
      = (.error .lengthMismatchError, ⟨[45, 53, 120, 121, 122], 5⟩) ∧
    Err.lengthMismatchError ≠ Err.badPrefixError := ⟨by decide, rfl, by decide⟩

/-- C5 (amended): when the prefix bytes are rejected by int() (for example a
non-digit byte), the reader fails with InvalidLengthPrefix and the cursor
stops right after the prefix, so no payload bytes are consumed; a well-formed
negative prefix, however, parses and reaches the payload read instead. -/
theorem strict_var_bad_prefix (plen : Nat) (f : File)
    (hp : plen ≤ f.remaining)
    (hparse : pyInt ((f.data.drop f.pos).take plen) = none) :
    variable_length_reader plen f = (.error .badPrefixError, ⟨f.data, f.pos + plen⟩) := by
  have hok := strict_read_ok f (plen : Int) (by exact_mod_cast Nat.zero_le plen)
    (by exact_mod_cast hp)
  rw [Int.toNat_natCast] at hok
  have hlen : ((f.data.drop f.pos).take plen).length = plen := by
    rw [List.length_take, length_drop_pos, min_eq_left hp]
  have hnlt : ¬ (((f.data.drop f.pos).take plen).length < plen) := by omega
  simp only [variable_length_reader, hok, if_neg hnlt, hparse]

/-- C5 witness: LLVAR on the bytes of 1hello fails with InvalidLengthPrefix,
consuming only the two prefix bytes. -/
theorem strict_var_bad_prefix_witness :
    (2 ≤ (⟨[49, 104, 101, 108, 108, 111], 0⟩ : File).remaining) ∧
    pyInt [49, 104] = none ∧
    variable_length_reader 2 ⟨[49, 104, 101, 108, 108, 111], 0⟩
      = (.error .badPrefixError, ⟨[49, 104, 101, 108, 108, 111], 2⟩) := by
  refine ⟨by decide, by decide, ?_⟩
  have h := strict_var_bad_prefix 2 ⟨[49, 104, 101, 108, 108, 111], 0⟩
    (by decide) (by decide)
  rw [h]

/-! ## C8: the permissive policy of the optimized module -/

theorem file_read_of_le (f : File) (k : Nat) (h : k ≤ f.remaining) :
    f.read (k : Int) = ((f.data.drop f.pos).take k, ⟨f.data, f.pos + k⟩) := by
  have hneg : ¬ ((k : Int) < 0) := by exact_mod_cast Int.not_lt.mpr (Int.natCast_nonneg k)
  simp only [File.read, if_neg hneg, Int.toNat_natCast]
  rw [min_eq_left (by rw [length_drop_pos]; omega)]

theorem file_read_all (f : File) (k : Nat) (h : f.remaining ≤ k) :
    f.read (k : Int) = (f.data.drop f.pos, ⟨f.data, f.pos + f.remaining⟩) := by
  have hneg : ¬ ((k : Int) < 0) := by exact_mod_cast Int.not_lt.mpr (Int.natCast_nonneg k)
  simp only [File.read, if_neg hneg, Int.toNat_natCast]
  rw [min_eq_right (by rw [length_drop_pos]; omega), List.take_length, length_drop_pos]

/-- C8: under the permissive policy, an empty length-prefix read yields no
value (a soft end signal) with the file unchanged instead of failing, and a
payload read that returns fewer bytes than the parsed length is not checked:
the short payload (all remaining bytes) is returned as the element. -/
theorem optimized_reader_permissive_spec (plen : Nat) (f : File) (hplen : 0 < plen) :
    (f.remaining = 0 → optimized_variable_length_reader plen f = (.ok none, f)) ∧
    (∀ L : Int, plen ≤ f.remaining →
      pyInt ((f.data.drop f.pos).take plen) = some L → 0 ≤ L →
      f.remaining - plen < L.toNat →
      (optimized_variable_length_reader plen f).1
          = .ok (some (f.data.drop (f.pos + plen))) ∧
      (f.data.drop (f.pos + plen)).length < L.toNat) := by
  constructor
  · intro h0
    have hall := file_read_all f plen (by omega)
    have hnil : f.data.drop f.pos = [] :=
      List.drop_eq_nil_of_le (by simp only [File.remaining] at h0; omega)
    rw [hnil, h0] at hall
    simp only [optimized_variable_length_reader, hall, List.isEmpty_nil, if_pos]
    cases f with
    | mk data pos => simp
  · intro L hp hparse hL hshort
    have hok := file_read_of_le f plen hp
    have hlen : ((f.data.drop f.pos).take plen).length = plen := by
      rw [List.length_take, length_drop_pos, min_eq_left hp]
    have hne : ((f.data.drop f.pos).take plen).isEmpty = false := by
      rw [List.isEmpty_eq_false]
      intro hcon
      rw [hcon] at hlen
      simp at hlen
      omega
    have hrem1 : (⟨f.data, f.pos + plen⟩ : File).remaining = f.remaining - plen := by
      simp only [File.remaining] at hp ⊢
      omega
    have hall : (⟨f.data, f.pos + plen⟩ : File).read L
        = ((⟨f.data, f.pos + plen⟩ : File).data.drop (⟨f.data, f.pos + plen⟩ : File).pos,
           ⟨f.data, f.pos + plen + (f.remaining - plen)⟩) := by
      rw [← Int.toNat_of_nonneg hL]
      have := file_read_all (⟨f.data, f.pos + plen⟩ : File) L.toNat (by omega)
      rw [hrem1] at this
      exact this
    constructor
    · simp only [optimized_variable_length_reader, hok, hne, Bool.false_eq_true, if_false,
        hparse, hall]
    · rw [List.length_drop]
      simp only [File.remaining] at hp hshort
      omega

/-- C8 witness: with an exhausted source the permissive LLVAR reader returns
no value, and on the bytes of 05hel (declared length 5, only 3 payload bytes)
it returns the short payload hel unchecked. -/
theorem optimized_reader_permissive_spec_witness :
    ((0 : Nat) < 2) ∧
    optimized_variable_length_reader 2 ⟨[], 0⟩ = (.ok none, ⟨[], 0⟩) ∧
    (optimized_variable_length_reader 2 ⟨[48, 53, 104, 101, 108], 0⟩).1
      = .ok (some [104, 101, 108]) := by
  refine ⟨by decide, ?_, ?_⟩
  · exact (optimized_reader_permissive_spec 2 ⟨[], 0⟩ (by decide)).1 (by decide)
  · have h := ((optimized_reader_permissive_spec 2 ⟨[48, 53, 104, 101, 108], 0⟩
      (by decide)).2 5 (by decide) (by decide) (by decide) (by decide)).1
    rw [h]
    decide

/-! ## C10: FIXED entries without a field length -/

theorem seed_le_foldl_max (l : List Nat) : ∀ b : Nat, b ≤ l.foldl max b := by
  induction l with
  | nil => intro b; simp
  | cons x xs ih =>
    intro b
    simp only [List.foldl_cons]
    exact le_trans (le_max_left b x) (ih (max b x))

theorem mem_le_foldl_max (l : List Nat) (a : Nat) (h : a ∈ l) :
    ∀ b : Nat, a ≤ l.foldl max b := by
  induction l with
  | nil => cases h
  | cons x xs ih =>
    intro b
    simp only [List.foldl_cons]
    rcases List.mem_cons.mp h with rfl | hmem
    · exact le_trans (le_max_right b a) (seed_le_foldl_max xs (max b a))
    · exact ih hmem (max b x)

theorem reader_index_go_preserve (k : Nat) (entries : List (Nat × FieldDetails)) :
    ∀ idx : List (Option FieldReader),
      (∀ p ∈ entries, p.2.field_type = "FIXED" ∨ p.2.field_type = "LLVAR" ∨
        p.2.field_type = "LLLVAR") →
      k ∉ entries.map Prod.fst →
      ∃ out, reader_index_go entries idx = .ok out ∧ out[k]? = idx[k]? ∧
        out.length = idx.length := by
  induction entries with
  | nil =>
    intro idx _ _
    exact ⟨idx, rfl, rfl, rfl⟩
  | cons p rest ih =>
    intro idx hval hk
    simp only [List.map_cons, List.mem_cons, not_or] at hk
    have hvalrest : ∀ q ∈ rest, q.2.field_type = "FIXED" ∨ q.2.field_type = "LLVAR" ∨
        q.2.field_type = "LLLVAR" := fun q hq => hval q (List.mem_cons_of_mem p hq)
    have hpk : p.1 ≠ k := fun hc => hk.1 hc.symm
    rcases hval p (List.mem_cons_self p rest) with h | h | h
    · simp only [reader_index_go, h, if_pos rfl]
      obtain ⟨out, h1, h2, h3⟩ := ih (idx.set p.1 (some (.fixed (p.2.field_length.getD 0))))
        hvalrest hk.2
      exact ⟨out, h1, by rw [h2, List.getElem?_set_ne hpk],
        by rw [h3, List.length_set]⟩
    · simp only [reader_index_go, h, if_neg (by decide : ¬ ("LLVAR" : String) = "FIXED"),
        if_pos rfl]
      obtain ⟨out, h1, h2, h3⟩ := ih (idx.set p.1 (some .llvar)) hvalrest hk.2
      exact ⟨out, h1, by rw [h2, List.getElem?_set_ne hpk],
        by rw [h3, List.length_set]⟩
    · simp only [reader_index_go, h, if_neg (by decide : ¬ ("LLLVAR" : String) = "FIXED"),
        if_neg (by decide : ¬ ("LLLVAR" : String) = "LLVAR"), if_pos rfl]
      obtain ⟨out, h1, h2, h3⟩ := ih (idx.set p.1 (some .lllvar)) hvalrest hk.2
      exact ⟨out, h1, by rw [h2, List.getElem?_set_ne hpk],
        by rw [h3, List.length_set]⟩

theorem reader_index_go_fixed_none (k : Nat) (entries : List (Nat × FieldDetails)) :
    ∀ idx : List (Option FieldReader),
      (∀ p ∈ entries, p.2.field_type = "FIXED" ∨ p.2.field_type = "LLVAR" ∨
        p.2.field_type = "LLLVAR") →
      (k, (⟨"FIXED", none⟩ : FieldDetails)) ∈ entries →
      (entries.map Prod.fst).Nodup →
      k < idx.length →
      ∃ out, reader_index_go entries idx = .ok out ∧
        out[k]? = some (some (.fixed 0)) ∧ out.length = idx.length := by
  induction entries with
  | nil =>
    intro idx _ hmem _ _
    cases hmem
  | cons p rest ih =>
    intro idx hval hmem hnd hklt
    simp only [List.map_cons, List.nodup_cons] at hnd
    have hvalrest : ∀ q ∈ rest, q.2.field_type = "FIXED" ∨ q.2.field_type = "LLVAR" ∨
        q.2.field_type = "LLLVAR" := fun q hq => hval q (List.mem_cons_of_mem p hq)
    rcases List.mem_cons.mp hmem with heq | hmem2
    · subst heq
      simp only [reader_index_go, if_pos rfl]
      have hknotin : k ∉ rest.map Prod.fst := hnd.1
      obtain ⟨out, h1, h2, h3⟩ := reader_index_go_preserve k rest
        (idx.set k (some (.fixed (Option.getD none 0)))) hvalrest hknotin
      refine ⟨out, h1, ?_, by rw [h3, List.length_set]⟩
      rw [h2]
      simp only [Option.getD_none]
      exact List.getElem?_set_self hklt
    · have hpk : p.1 ≠ k := by
        intro hc
        exact hnd.1 (hc ▸ List.mem_map.mpr ⟨_, hmem2, rfl⟩)
      rcases hval p (List.mem_cons_self p rest) with h | h | h
      · simp only [reader_index_go, h, if_pos rfl]
        obtain ⟨out, h1, h2, h3⟩ := ih (idx.set p.1 (some (.fixed (p.2.field_length.getD 0))))
          hvalrest hmem2 hnd.2 (by rw [List.length_set]; exact hklt)
        exact ⟨out, h1, h2, by rw [h3, List.length_set]⟩
      · simp only [reader_index_go, h, if_neg (by decide : ¬ ("LLVAR" : String) = "FIXED"),
          if_pos rfl]
        obtain ⟨out, h1, h2, h3⟩ := ih (idx.set p.1 (some .llvar)) hvalrest hmem2 hnd.2
          (by rw [List.length_set]; exact hklt)
        exact ⟨out, h1, h2, by rw [h3, List.length_set]⟩
      · simp only [reader_index_go, h, if_neg (by decide : ¬ ("LLLVAR" : String) = "FIXED"),
          if_neg (by decide : ¬ ("LLLVAR" : String) = "LLVAR"), if_pos rfl]
        obtain ⟨out, h1, h2, h3⟩ := ih (idx.set p.1 (some .lllvar)) hvalrest hmem2 hnd.2
          (by rw [List.length_set]; exact hklt)
        exact ⟨out, h1, h2, by rw [h3, List.length_set]⟩

/-- C10: for every configuration entry of type FIXED without a field length,
construction of the reader index succeeds (given every entry has a known
field type), the bound reader for that field is the fixed reader of length 0,
and running it on any file reads zero bytes, returning the empty byte string
without ever failing: the missing length silently defaults to 0. -/
theorem fixed_without_length_defaults_to_zero (cfg : List (Nat × FieldDetails)) (k : Nat)
    (hmem : (k, (⟨"FIXED", none⟩ : FieldDetails)) ∈ cfg)
    (hnd : (cfg.map Prod.fst).Nodup)
    (hval : ∀ p ∈ cfg, p.2.field_type = "FIXED" ∨ p.2.field_type = "LLVAR" ∨
      p.2.field_type = "LLLVAR") :
    ∃ idx, create_reader_index cfg = .ok idx ∧ idx[k]? = some (some (.fixed 0)) ∧
      ∀ f : File, runFieldReader (.fixed 0) f = (.ok [], f) := by
  have hk_le : k ≤ (cfg.map Prod.fst).foldl max 0 :=
    mem_le_foldl_max _ k (List.mem_map.mpr ⟨_, hmem, rfl⟩) 0
  cases cfg with
  | nil => cases hmem
  | cons p rest =>
    obtain ⟨out, h1, h2, h3⟩ := reader_index_go_fixed_none k (p :: rest)
      (List.replicate (((p :: rest).map Prod.fst).foldl max 0 + 1) none)
      hval hmem hnd (by rw [List.length_replicate]; omega)
    refine ⟨out, ?_, h2, ?_⟩
    · simpa only [create_reader_index] using h1
    · intro f
      have h0 := strict_read_ok f 0 le_rfl (by exact_mod_cast Nat.zero_le f.remaining)
      simp only [runFieldReader, Nat.cast_zero, h0]
      cases f with
      | mk data pos => simp

/-- C10 witness: the single-entry configuration with field 1 FIXED and no
field length builds successfully, binds field 1 to the zero-length fixed
reader, and that reader returns the empty byte string. -/
theorem fixed_without_length_defaults_to_zero_witness :
    ((1, (⟨"FIXED", none⟩ : FieldDetails)) ∈
      [(1, (⟨"FIXED", none⟩ : FieldDetails))]) ∧
    ∃ idx, create_reader_index [(1, ⟨"FIXED", none⟩)] = .ok idx ∧
      idx[1]? = some (some (.fixed 0)) ∧
      ∀ f : File, runFieldReader (.fixed 0) f = (.ok [], f) := by
  refine ⟨List.mem_singleton_self _, ?_⟩
  exact fixed_without_length_defaults_to_zero [(1, ⟨"FIXED", none⟩)] 1
    (List.mem_singleton_self _) (by simp) (by simp)

/-! ## C6: bitmap round trip -/

theorem byte_test_core : ∀ (c0 c1 c2 c3 c4 c5 c6 c7 : Bool), ∀ j < 8,
    ((((cond c0 128 0) + (cond c1 64 0) + (cond c2 32 0) + (cond c3 16 0) +
       (cond c4 8 0) + (cond c5 4 0) + (cond c6 2 0) + (cond c7 1 0) : Nat) &&&
        (1 <<< (7 - j)) ≠ 0) ↔
      [c0, c1, c2, c3, c4, c5, c6, c7].getD j false = true) := by decide

theorem ite_mem_decide (F : Finset Nat) (n v : Nat) :
    (if n ∈ F then v else 0) = cond (decide (n ∈ F)) v 0 := by
  by_cases h : n ∈ F <;> simp [h]

theorem encode_byte_test (F : Finset Nat) (i j : Nat) (hj : j < 8) :
    (encode_byte F i &&& (1 <<< (7 - j)) ≠ 0) ↔ i * 8 + j + 1 ∈ F := by
  have hrw : encode_byte F i =
      (cond (decide (i * 8 + 1 ∈ F)) 128 0) + (cond (decide (i * 8 + 2 ∈ F)) 64 0) +
      (cond (decide (i * 8 + 3 ∈ F)) 32 0) + (cond (decide (i * 8 + 4 ∈ F)) 16 0) +
      (cond (decide (i * 8 + 5 ∈ F)) 8 0) + (cond (decide (i * 8 + 6 ∈ F)) 4 0) +
      (cond (decide (i * 8 + 7 ∈ F)) 2 0) + (cond (decide (i * 8 + 8 ∈ F)) 1 0) := by
    simp only [encode_byte, ite_mem_decide]
  rw [hrw, byte_test_core (decide (i * 8 + 1 ∈ F)) (decide (i * 8 + 2 ∈ F))
    (decide (i * 8 + 3 ∈ F)) (decide (i * 8 + 4 ∈ F)) (decide (i * 8 + 5 ∈ F))
    (decide (i * 8 + 6 ∈ F)) (decide (i * 8 + 7 ∈ F)) (decide (i * 8 + 8 ∈ F)) j hj]
  interval_cases j <;> simp

theorem mem_determine_set_bit_indices (bm : List Nat) (n : Nat) :
    n ∈ determine_set_bit_indices bm ↔
      ∃ i j, i < bm.length ∧ j < 8 ∧ n = i * 8 + j + 1 ∧
        bm.getD i 0 &&& (1 <<< (7 - j)) ≠ 0 := by
  unfold determine_set_bit_indices
  rw [List.mem_flatten]
  constructor
  · rintro ⟨l, hl, hnl⟩
    rw [List.mem_map] at hl
    obtain ⟨p, hp, rfl⟩ := hl
    rw [List.mem_filterMap] at hnl
    obtain ⟨j, hj, hsome⟩ := hnl
    rw [List.mem_range] at hj
    rw [List.mem_enum_iff_getElem?] at hp
    have hi : p.1 < bm.length := by
      by_contra hcon
      rw [List.getElem?_eq_none (by omega)] at hp
      cases hp
    by_cases hc : p.2 &&& (1 <<< (7 - j)) ≠ 0
    · rw [if_pos hc] at hsome
      refine ⟨p.1, j, hi, hj, (Option.some.inj hsome).symm, ?_⟩
      have hget : bm.getD p.1 0 = p.2 := by
        rw [List.getD_eq_getElem?_getD, hp, Option.getD_some]
      rw [hget]
      exact hc
    · rw [if_neg hc] at hsome
      cases hsome
  · rintro ⟨i, j, hi, hj, rfl, hbit⟩
    refine ⟨(List.range 8).filterMap (fun j =>
        if bm.getD i 0 &&& (1 <<< (7 - j)) ≠ 0 then some (i * 8 + j + 1) else none),
      List.mem_map.mpr ⟨(i, bm.getD i 0), ?_, rfl⟩, ?_⟩
    · rw [List.mem_enum_iff_getElem?]
      simp [List.getD_eq_getElem?_getD, List.getElem?_eq_getElem hi]
    · rw [List.mem_filterMap]
      exact ⟨j, List.mem_range.mpr hj, by rw [if_pos hbit]⟩

theorem determine_set_bit_indices_sorted (bm : List Nat) :
    List.Sorted (· < ·) (determine_set_bit_indices bm) := by
  unfold determine_set_bit_indices List.Sorted
  rw [List.pairwise_flatten]
  constructor
  · intro l hl
    rw [List.mem_map] at hl
    obtain ⟨p, _, rfl⟩ := hl
    rw [List.pairwise_filterMap]
    refine (List.pairwise_lt_range 8).imp ?_
    intro a b hab x hx y hy
    by_cases hca : p.2 &&& (1 <<< (7 - a)) ≠ 0
    · rw [if_pos hca] at hx
      by_cases hcb : p.2 &&& (1 <<< (7 - b)) ≠ 0
      · rw [if_pos hcb] at hy
        rw [Option.mem_some_iff] at hx hy
        omega
      · rw [if_neg hcb] at hy
        cases hy
    · rw [if_neg hca] at hx
      cases hx
  · rw [List.pairwise_map]
    have henum : bm.enum.Pairwise (fun p q => p.1 < q.1) := by
      rw [List.pairwise_iff_getElem]
      intro a b ha hb hab
      simp only [List.enum_length] at ha hb
      simp only [List.getElem_enum]
      exact hab
    refine henum.imp ?_
    intro p q hpq x hx y hy
    rw [List.mem_filterMap] at hx hy
    obtain ⟨a, ha, hxa⟩ := hx
    obtain ⟨b, hb, hyb⟩ := hy
    rw [List.mem_range] at ha hb
    split at hxa
    · split at hyb
      · obtain rfl := Option.some.inj hxa
        obtain rfl := Option.some.inj hyb
        omega
      · cases hyb
    · cases hxa

theorem mem_decode_encode (F : Finset Nat) (hF : ∀ n ∈ F, 1 ≤ n ∧ n ≤ 128) (n : Nat) :
    n ∈ determine_set_bit_indices (encode_bitmap F) ↔ n ∈ F := by
  rw [mem_determine_set_bit_indices]
  have hlen : (encode_bitmap F).length = 16 := by simp [encode_bitmap]
  have hgetD : ∀ i, i < 16 → (encode_bitmap F).getD i 0 = encode_byte F i := by
    intro i hi
    simp [encode_bitmap, List.getD_eq_getElem?_getD, List.getElem?_range hi]
  constructor
  · rintro ⟨i, j, hi, hj, rfl, hbit⟩
    rw [hlen] at hi
    rw [hgetD i hi] at hbit
    exact (encode_byte_test F i j hj).mp hbit
  · intro hn
    have hb := hF n hn
    refine ⟨(n - 1) / 8, (n - 1) % 8, ?_, ?_, ?_, ?_⟩
    · rw [hlen]; omega
    · omega
    · omega
    · rw [hgetD _ (by omega)]
      rw [encode_byte_test F _ _ (by omega)]
      have harith : (n - 1) / 8 * 8 + (n - 1) % 8 + 1 = n := by omega
      rw [harith]
      exact hn

/-- C6: for every set F of field numbers in 1..128, decoding the 16-byte
bitmap whose set bits are exactly those of F yields exactly the elements of F
in strictly ascending order (the sorted enumeration of F). -/
theorem bitmap_round_trip (F : Finset Nat) (hF : ∀ n ∈ F, 1 ≤ n ∧ n ≤ 128) :
    determine_set_bit_indices (encode_bitmap F) = F.sort (· ≤ ·) := by
  have hs1 : List.Sorted (· < ·) (determine_set_bit_indices (encode_bitmap F)) :=
    determine_set_bit_indices_sorted _
  have hnd1 : (determine_set_bit_indices (encode_bitmap F)).Nodup :=
    hs1.imp (fun h => Nat.ne_of_lt h)
  have hperm : List.Perm (determine_set_bit_indices (encode_bitmap F)) (F.sort (· ≤ ·)) :=
    (List.perm_ext_iff_of_nodup hnd1 (Finset.sort_nodup (· ≤ ·) F)).mpr (fun a => by
      rw [mem_decode_encode F hF a, Finset.mem_sort])
  exact List.eq_of_perm_of_sorted hperm (hs1.imp (fun h => Nat.le_of_lt h))
    (Finset.sort_sorted (· ≤ ·) F)

/-- C6 witness: the set containing fields 1, 3 and 77 round-trips through the
bitmap to the ascending list of its elements. -/
theorem bitmap_round_trip_witness :
    (∀ n ∈ ({1, 3, 77} : Finset Nat), 1 ≤ n ∧ n ≤ 128) ∧
    determine_set_bit_indices (encode_bitmap {1, 3, 77})
      = ({1, 3, 77} : Finset Nat).sort (· ≤ ·) :=
  ⟨by decide, bitmap_round_trip {1, 3, 77} (by decide)⟩
